import Mathlib

set_option maxRecDepth 10000

/-!
Shallow embedding of the variable-width integer core in
`contrib/varint/varint.c`.

A `vb_register` is an array of eight `uint32` words, least significant
word first, read as a 256-bit two's-complement integer.  We model the
word array as a `List Nat` whose entries are below `2 ^ 32`; the
predicate `ValidReg` states that side condition together with the fixed
length 8.  Encoded values are `List Nat` byte sequences (entries below
256), least significant byte first.
-/

namespace Varint

/-- Register validity: exactly `VB_MAX_WORDS = 8` words, each a `uint32`. -/
def ValidReg (r : List Nat) : Prop := r.length = 8 ∧ ∀ w ∈ r, w < 2 ^ 32

instance (r : List Nat) : Decidable (ValidReg r) :=
  inferInstanceAs (Decidable (r.length = 8 ∧ ∀ w ∈ r, w < 2 ^ 32))

/-- Unsigned value of a word array, least significant word first. -/
def uval : List Nat → Nat
  | [] => 0
  | w :: ws => w + 2 ^ 32 * uval ws

/-- Signed 256-bit two's-complement value of a register. -/
def sval (r : List Nat) : Int :=
  if uval r < 2 ^ 255 then (uval r : Int) else (uval r : Int) - 2 ^ 256

/-- `VB_IS_NEGATIVE(r)`: `(r)->word[VB_LAST_WORD] > PG_INT32_MAX`. -/
def VB_IS_NEGATIVE (r : List Nat) : Bool := decide (0x7fffffff < r.getD 7 0)

/-- Loop of `vb_register_negate`: per word `n = ~word + a` where the
bitwise complement of a `uint32` word `w` is `0xffffffff - w`; the carry
into the next word is 1 exactly when a nonzero incoming carry wrapped the
word to zero (`a = (a != 0 && r->word[i] == 0) ? 1 : 0`). -/
def negLoop : List Nat → Nat → List Nat
  | [], _ => []
  | w :: ws, a =>
    let n := (0xffffffff - w + a) % 2 ^ 32
    n :: negLoop ws (if a ≠ 0 ∧ n = 0 then 1 else 0)

/-- `vb_register_negate`: two's-complement negation (invert plus one).
The returned flag is `isneg == VB_IS_NEGATIVE(r) ? 1 : 0`, i.e. 1 when
the sign did not change. -/
def vb_register_negate (r : List Nat) : List Nat × Nat :=
  let isneg := VB_IS_NEGATIVE r
  let r2 := negLoop r 1
  (r2, if isneg = VB_IS_NEGATIVE r2 then 1 else 0)

/-- `varint_uminus` at register level: negate, and raise the overflow
error (modelled as `none`) when `vb_register_negate` returns nonzero. -/
def varint_uminus (r : List Nat) : Option (List Nat) :=
  let p := vb_register_negate r
  if p.2 ≠ 0 then none else some p.1

/-- Loop of `varint_add`: `c += a[i]; c += b[i]; out = c & 0xffffffff;
c >>= 32` — on unsigned values the mask is `% 2 ^ 32` and the shift is
division by `2 ^ 32`. -/
def addLoop : List Nat → List Nat → Nat → List Nat
  | a :: as_, b :: bs, c =>
    let s := c + a + b
    s % 2 ^ 32 :: addLoop as_ bs (s / 2 ^ 32)
  | _, _, _ => []

/-- `varint_add` at register level: word-wise addition with carry, then
the two sign checks; `none` models the `vb_overflow()` error path. -/
def varint_add (a b : List Nat) : Option (List Nat) :=
  let aneg := VB_IS_NEGATIVE a
  let bneg := VB_IS_NEGATIVE b
  let s := addLoop a b 0
  if aneg && bneg && !VB_IS_NEGATIVE s then none
  else if !aneg && !bneg && VB_IS_NEGATIVE s then none
  else some s

/-- `make_varint`: place a signed 64-bit value into the low two words
(`arg & 0xffffffff` and `(arg >> 32) & 0xffffffff` of the two's-complement
bit pattern) and fill words 2..7 with the sign extension. -/
def make_varint (arg : Int) : List Nat :=
  let u := (arg % (2 : Int) ^ 64).toNat
  u % 2 ^ 32 :: u / 2 ^ 32 % 2 ^ 32 ::
    List.replicate 6 (if arg < 0 then 0xffffffff else 0)

/-- `PG_GETARG_INT32` applied to a 64-bit datum: `DatumGetInt32` casts the
datum to `int32`, keeping only the low 32 bits, reinterpreted as signed. -/
def getarg_int32_trunc (v : Int) : Int :=
  let u := v % (2 : Int) ^ 32
  if u < 2 ^ 31 then u else u - 2 ^ 32

/-- `int8_varint`: the 64-bit-to-varint cast.  The C body reads its
argument with `PG_GETARG_INT32(0)` (not `PG_GETARG_INT64`), so the value
is truncated to 32 bits before `make_varint`. -/
def int8_varint (v : Int) : List Nat := make_varint (getarg_int32_trunc v)

/-- Negative-branch scan of `vb_register_out`: `for (i = VB_LAST_WORD;
i > 0; --i) if (word[i] != 0xffffffff) break;` — the highest index down to
1 whose word is not all-ones, else 0. -/
def topIdxNeg (r : List Nat) : Nat → Nat
  | 0 => 0
  | k + 1 => if r.getD (k + 1) 0 ≠ 0xffffffff then k + 1 else topIdxNeg r k

/-- Positive-branch scan of `vb_register_out`: the highest index whose
word is nonzero, or `none` (the C sentinel `i == -1`) if all are zero. -/
def topIdxPos (r : List Nat) : Nat → Option Nat
  | 0 => if r.getD 0 0 ≠ 0 then some 0 else none
  | k + 1 => if r.getD (k + 1) 0 ≠ 0 then some (k + 1) else topIdxPos r k

/-- `vb_register_out`: compute the payload byte count from the topmost
significant word exactly as the two threshold chains in the C source do,
then emit byte `j` as `(word[j/4] >> (8*(j%4))) & 0xff`, i.e.
`word[j/4] / 2 ^ (8*(j%4)) % 256`. -/
def vb_register_out (r : List Nat) : List Nat :=
  let bytes :=
    if VB_IS_NEGATIVE r then
      let i := topIdxNeg r 7
      let w := r.getD i 0
      i * 4 + (if 0xffffff80 ≤ w then 1
               else if 0xffff8000 ≤ w then 2
               else if 0xff800000 ≤ w then 3
               else if 0x80000000 ≤ w then 4
               else 5)
    else
      match topIdxPos r 7 with
      | none => 0
      | some i =>
        let w := r.getD i 0
        i * 4 + (if 0x007fffff < w then 4
                 else if 0x00007fff < w then 3
                 else if 0x0000007f < w then 2
                 else if 0 < w then 1
                 else 0)
  (List.range bytes).map (fun j => r.getD (j / 4) 0 / 2 ^ (8 * (j % 4)) % 256)

/-- The one-byte varlena header written by `SET_VARSIZE_SHORT` on a
little-endian host for a datum with `len` payload bytes: the total size
`1 + len` is stored as `((1 + len) & 0x7F) << 1 | 0x01`.  This byte sits
immediately before the payload in memory, so a read of `data[-1]` lands
on it. -/
def short_hdr (len : Nat) : Nat := ((1 + len) % 128) * 2 + 1

/-- `vb_register_in`: decode a byte payload into a register.  The pad is
chosen from `input[length - 1] & 0x80`; for an empty payload that read is
`input[-1]`, the varlena header byte, whose bit 7 is clear for every
length this module produces, hence pad `0x00`.  Each word then ORs in the
supplied bytes, padding the missing high-order bytes. -/
def vb_register_in (input : List Nat) : List Nat :=
  let pad := if input.getLastD (short_hdr input.length) &&& 0x80 ≠ 0 then 0xff else 0x00
  (List.range 8).map (fun k =>
    (List.range 4).foldl
      (fun w b =>
        w ||| (if 4 * k + b < input.length then input.getD (4 * k + b) 0 else pad) <<< (8 * b))
      0)

/-- Long-division loop of `vb_register_divmod_uint32`, processing words
most significant first: `a = (a << 32) | word` (equal to
`a * 2 ^ 32 + word` since `word < 2 ^ 32`), quotient word `a / n`,
carried remainder `a % n`. -/
def divLoop : List Nat → Nat → Nat → List Nat × Nat
  | [], _, a => ([], a)
  | w :: ws, n, a =>
    let t := a * 2 ^ 32 + w
    let p := divLoop ws n (t % n)
    (t / n :: p.1, p.2)

/-- `vb_register_divmod_uint32`: division-by-zero error for `n = 0`
(modelled as `none`), the `n = 1` shortcut returning remainder 0 with the
register untouched, and otherwise negate-if-negative, long-divide the
magnitude, negate back, and return the quotient with the remainder. -/
def vb_register_divmod_uint32 (r : List Nat) (n : Nat) : Option (List Nat × Nat) :=
  if n = 0 then none
  else if n = 1 then some (r, 0)
  else
    let isneg := VB_IS_NEGATIVE r
    let r1 := if isneg then (vb_register_negate r).1 else r
    let p := divLoop r1.reverse n 0
    let r2 := p.1.reverse
    let r3 := if isneg then (vb_register_negate r2).1 else r2
    some (r3, p.2)

/-- Read byte `i` of a varlena payload as `compare_varint` does: index
`-1` lands on the one-byte varlena header preceding the payload (written
by `SET_VARSIZE_SHORT` in `vb_register_out`), any other index is an
in-range payload byte. -/
def vdata_read (x : List Nat) (i : Int) : Nat :=
  if i < 0 then short_hdr x.length else x.getD i.toNat 0

/-- Tail loop of `compare_varint`: `while (alen >= 0) { --alen;
if (adata[alen] != bdata[alen]) ... }`.  The parameter is `alen + 1`, so
the iteration entered with `alen = 0` compares the bytes at index `-1`. -/
def cmpLoop (a b : List Nat) : Nat → Int
  | 0 => 0
  | j + 1 =>
    let x := vdata_read a ((j : Int) - 1)
    let y := vdata_read b ((j : Int) - 1)
    if x ≠ y then (if x > y then 1 else -1) else cmpLoop a b j

/-- `compare_varint` over the stored-byte model: unequal lengths are
decided by the sign bit of the longer value's top byte; equal lengths
compare the sign-flipped top bytes `(data[alen] + 0x80) & 0xff`, then the
remaining bytes from high to low. -/
def compare_varint (a b : List Nat) : Int :=
  if a.length ≠ b.length then
    if a.length > b.length then
      if 0x80 ≤ a.getD (a.length - 1) 0 then -1 else 1
    else
      if 0x80 ≤ b.getD (b.length - 1) 0 then 1 else -1
  else
    let aa := (vdata_read a ((a.length : Int) - 1) + 0x80) % 256
    let bb := (vdata_read b ((a.length : Int) - 1) + 0x80) % 256
    if aa ≠ bb then (if aa > bb then 1 else -1) else cmpLoop a b a.length

/-- Byte read with `Option` result: `none` for any index outside
positions `0 .. length - 1` of the payload. -/
def vdata_read_opt (x : List Nat) (i : Int) : Option Nat :=
  if i < 0 then none else x.get? i.toNat

/-- Tail loop of `compare_varint` in the total `Option`-indexing
embedding: an out-of-range byte access makes the whole comparison
`none`. -/
def cmpLoopOpt (a b : List Nat) : Nat → Option Int
  | 0 => some 0
  | j + 1 =>
    match vdata_read_opt a ((j : Int) - 1), vdata_read_opt b ((j : Int) - 1) with
    | some x, some y =>
      if x ≠ y then some (if x > y then 1 else -1) else cmpLoopOpt a b j
    | _, _ => none

/-- `compare_varint` in the total `Option`-indexing embedding: identical
control flow, with every payload byte access checked against the payload
bounds. -/
def compare_varint_opt (a b : List Nat) : Option Int :=
  if a.length ≠ b.length then
    if a.length > b.length then
      some (if 0x80 ≤ a.getD (a.length - 1) 0 then -1 else 1)
    else
      some (if 0x80 ≤ b.getD (b.length - 1) 0 then 1 else -1)
  else
    match vdata_read_opt a ((a.length : Int) - 1), vdata_read_opt b ((a.length : Int) - 1) with
    | some ta, some tb =>
      let aa := (ta + 0x80) % 256
      let bb := (tb + 0x80) % 256
      if aa ≠ bb then some (if aa > bb then 1 else -1) else cmpLoopOpt a b a.length
    | _, _ => none

/-- Value of a word list read most significant word first with an
accumulator, as the long-division loop consumes it:
`mvalAux a (w :: ws) = mvalAux (a * 2 ^ 32 + w) ws`. -/
def mvalAux : Nat → List Nat → Nat
  | a, [] => a
  | a, w :: ws => mvalAux (a * 2 ^ 32 + w) ws

/-- `varint_recv`: read a one-byte length, reject lengths over
`sizeof(uint32) * VB_MAX_WORDS = 32`, copy the payload, and reject a
payload whose final byte is NUL.  For `len = 0` the final-byte test reads
`data[-1]`, the header byte `SET_VARSIZE_SHORT(result, len)` just wrote,
which is `(len << 1) | 1 = 1` and never NUL. -/
def varint_recv (len : Nat) (data : List Nat) : Option (List Nat) :=
  if 32 < len then none
  else if (if len = 0 then (len % 128) * 2 + 1 else data.getD (len - 1) 0) = 0 then none
  else some (data.take len)

/-! ### Arithmetic lemmas about the word loops -/

theorem uval_lt (ws : List Nat) (h : ∀ w ∈ ws, w < 2 ^ 32) :
    uval ws < 2 ^ (32 * ws.length) := by
  induction ws with
  | nil => simp [uval]
  | cons w ws ih =>
    have hw : w < 2 ^ 32 := h w (by simp)
    have hu : uval ws < 2 ^ (32 * ws.length) := ih (fun x hx => h x (by simp [hx]))
    have hpow : 2 ^ (32 * (ws.length + 1)) = 2 ^ 32 * 2 ^ (32 * ws.length) := by
      rw [Nat.mul_add, Nat.mul_one, Nat.pow_add, Nat.mul_comm]
    simp only [uval, List.length_cons, hpow]
    have h2 : 2 ^ 32 * (uval ws + 1) ≤ 2 ^ 32 * 2 ^ (32 * ws.length) :=
      Nat.mul_le_mul_left _ hu
    omega

theorem mod_mul_split (r K M : Nat) (hr : r < 2 ^ 32) (hM : 0 < M) :
    (r + 2 ^ 32 * K) % (2 ^ 32 * M) = r + 2 ^ 32 * (K % M) := by
  obtain ⟨q, e, hqe, he⟩ : ∃ q e, K = M * q + e ∧ e < M :=
    ⟨K / M, K % M, (Nat.div_add_mod K M).symm, Nat.mod_lt _ hM⟩
  have hKe : K % M = e := by
    rw [hqe, Nat.mul_add_mod]
    exact Nat.mod_eq_of_lt he
  have hlt : r + 2 ^ 32 * e < 2 ^ 32 * M := by
    have h3 : 2 ^ 32 * (e + 1) ≤ 2 ^ 32 * M := Nat.mul_le_mul_left _ he
    omega
  rw [hKe, hqe]
  have hsplit : r + 2 ^ 32 * (M * q + e) = r + 2 ^ 32 * e + 2 ^ 32 * M * q := by ring
  rw [hsplit, Nat.add_mul_mod_self_left, Nat.mod_eq_of_lt hlt]

theorem addLoop_spec (as_ : List Nat) : ∀ (bs : List Nat) (c : Nat),
    as_.length = bs.length → (∀ w ∈ as_, w < 2 ^ 32) → (∀ w ∈ bs, w < 2 ^ 32) → c ≤ 1 →
    (addLoop as_ bs c).length = as_.length ∧ (∀ w ∈ addLoop as_ bs c, w < 2 ^ 32) ∧
    uval (addLoop as_ bs c) = (uval as_ + uval bs + c) % 2 ^ (32 * as_.length) := by
  induction as_ with
  | nil =>
    intro bs c hlen _ _ _
    have hbs : bs = [] := List.length_eq_zero.mp hlen.symm
    subst hbs
    simp [addLoop, uval, Nat.mod_one]
  | cons a as_ ih =>
    intro bs c hlen ha hb hc
    obtain ⟨b, bs, rfl⟩ : ∃ b bs', bs = b :: bs' := by
      cases bs with
      | nil => simp at hlen
      | cons b bs' => exact ⟨b, bs', rfl⟩
    have hlen' : as_.length = bs.length := by
      simp only [List.length_cons] at hlen
      omega
    have haw : a < 2 ^ 32 := ha a (by simp)
    have hbw : b < 2 ^ 32 := hb b (by simp)
    have hc' : (c + a + b) / 2 ^ 32 ≤ 1 := by omega
    obtain ⟨ih1, ih2, ih3⟩ := ih bs ((c + a + b) / 2 ^ 32) hlen'
      (fun x hx => ha x (by simp [hx])) (fun x hx => hb x (by simp [hx])) hc'
    refine ⟨by simp only [addLoop, List.length_cons, ih1], ?_, ?_⟩
    · intro w hw
      simp only [addLoop, List.mem_cons] at hw
      rcases hw with rfl | hw
      · exact Nat.mod_lt _ (by norm_num)
      · exact ih2 w hw
    · simp only [addLoop, uval, ih3, List.length_cons]
      have hpow : 2 ^ (32 * (as_.length + 1)) = 2 ^ 32 * 2 ^ (32 * as_.length) := by
        rw [Nat.mul_add, Nat.mul_one, Nat.pow_add, Nat.mul_comm]
      rw [hpow]
      have hM : 0 < 2 ^ (32 * as_.length) := Nat.pos_pow_of_pos _ (by norm_num)
      have hr : (c + a + b) % 2 ^ 32 < 2 ^ 32 := Nat.mod_lt _ (by norm_num)
      have hrw : a + 2 ^ 32 * uval as_ + (b + 2 ^ 32 * uval bs) + c
          = (c + a + b) % 2 ^ 32
            + 2 ^ 32 * (uval as_ + uval bs + (c + a + b) / 2 ^ 32) := by
        omega
      rw [hrw, mod_mul_split _ _ _ hr hM]

theorem negLoop_spec (ws : List Nat) : ∀ a : Nat,
    (∀ w ∈ ws, w < 2 ^ 32) → a ≤ 1 →
    (negLoop ws a).length = ws.length ∧ (∀ w ∈ negLoop ws a, w < 2 ^ 32) ∧
    uval (negLoop ws a) = (2 ^ (32 * ws.length) - 1 - uval ws + a) % 2 ^ (32 * ws.length) := by
  induction ws with
  | nil =>
    intro a _ ha
    simp [negLoop, uval, Nat.mod_one]
  | cons w ws ih =>
    intro a h ha
    have hw : w < 2 ^ 32 := h w (by simp)
    have hcarry : (if a ≠ 0 ∧ (0xffffffff - w + a) % 2 ^ 32 = 0 then 1 else 0)
        = (0xffffffff - w + a) / 2 ^ 32 := by
      split <;> omega
    obtain ⟨ih1, ih2, ih3⟩ := ih ((0xffffffff - w + a) / 2 ^ 32)
      (fun x hx => h x (by simp [hx])) (by omega)
    refine ⟨by simp only [negLoop, hcarry, List.length_cons, ih1], ?_, ?_⟩
    · intro x hx
      simp only [negLoop, hcarry, List.mem_cons] at hx
      rcases hx with rfl | hx
      · exact Nat.mod_lt _ (by norm_num)
      · exact ih2 x hx
    · simp only [negLoop, hcarry, uval, ih3, List.length_cons]
      have hpow : 2 ^ (32 * (ws.length + 1)) = 2 ^ 32 * 2 ^ (32 * ws.length) := by
        rw [Nat.mul_add, Nat.mul_one, Nat.pow_add, Nat.mul_comm]
      rw [hpow]
      have hM : 0 < 2 ^ (32 * ws.length) := Nat.pos_pow_of_pos _ (by norm_num)
      have hbound : uval ws < 2 ^ (32 * ws.length) :=
        uval_lt ws (fun x hx => h x (by simp [hx]))
      have hr : (0xffffffff - w + a) % 2 ^ 32 < 2 ^ 32 := Nat.mod_lt _ (by norm_num)
      have hrw : 2 ^ 32 * 2 ^ (32 * ws.length) - 1 - (w + 2 ^ 32 * uval ws) + a
          = (0xffffffff - w + a) % 2 ^ 32
            + 2 ^ 32 * (2 ^ (32 * ws.length) - 1 - uval ws
              + (0xffffffff - w + a) / 2 ^ 32) := by
        omega
      rw [hrw, mod_mul_split _ _ _ hr hM]

theorem reg_eight (r : List Nat) (h : r.length = 8) :
    ∃ w0 w1 w2 w3 w4 w5 w6 w7, r = [w0, w1, w2, w3, w4, w5, w6, w7] := by
  rcases r with _ | ⟨w0, r⟩
  · exfalso
    simp only [List.length_nil] at h
    omega
  rcases r with _ | ⟨w1, r⟩
  · exfalso
    simp only [List.length_cons, List.length_nil] at h
    omega
  rcases r with _ | ⟨w2, r⟩
  · exfalso
    simp only [List.length_cons, List.length_nil] at h
    omega
  rcases r with _ | ⟨w3, r⟩
  · exfalso
    simp only [List.length_cons, List.length_nil] at h
    omega
  rcases r with _ | ⟨w4, r⟩
  · exfalso
    simp only [List.length_cons, List.length_nil] at h
    omega
  rcases r with _ | ⟨w5, r⟩
  · exfalso
    simp only [List.length_cons, List.length_nil] at h
    omega
  rcases r with _ | ⟨w6, r⟩
  · exfalso
    simp only [List.length_cons, List.length_nil] at h
    omega
  rcases r with _ | ⟨w7, r⟩
  · exfalso
    simp only [List.length_cons, List.length_nil] at h
    omega
  rcases r with _ | ⟨w8, r⟩
  · exact ⟨w0, w1, w2, w3, w4, w5, w6, w7, rfl⟩
  · simp only [List.length_cons, List.length_nil] at h
    omega

theorem isNeg_iff (r : List Nat) (hr : ValidReg r) :
    VB_IS_NEGATIVE r = true ↔ 2 ^ 255 ≤ uval r := by
  obtain ⟨h8, hb⟩ := hr
  obtain ⟨w0, w1, w2, w3, w4, w5, w6, w7, rfl⟩ := reg_eight r h8
  have b0 : w0 < 2 ^ 32 := hb w0 (by simp)
  have b1 : w1 < 2 ^ 32 := hb w1 (by simp)
  have b2 : w2 < 2 ^ 32 := hb w2 (by simp)
  have b3 : w3 < 2 ^ 32 := hb w3 (by simp)
  have b4 : w4 < 2 ^ 32 := hb w4 (by simp)
  have b5 : w5 < 2 ^ 32 := hb w5 (by simp)
  have b6 : w6 < 2 ^ 32 := hb w6 (by simp)
  have hg : [w0, w1, w2, w3, w4, w5, w6, w7].getD 7 0 = w7 := rfl
  simp only [VB_IS_NEGATIVE, decide_eq_true_eq, hg, uval]
  omega

theorem vb_register_negate_spec (r : List Nat) (hr : ValidReg r) :
    ValidReg (vb_register_negate r).1 ∧
    uval (vb_register_negate r).1 = (2 ^ 256 - uval r) % 2 ^ 256 := by
  obtain ⟨h8, hb⟩ := hr
  obtain ⟨l1, l2, l3⟩ := negLoop_spec r 1 hb (by norm_num)
  have hlt : uval r < 2 ^ 256 := by
    have := uval_lt r hb
    rw [h8] at this
    norm_num at this
    exact this
  rw [h8] at l3
  norm_num at l3
  refine ⟨⟨by simpa [vb_register_negate, h8] using l1,
    by simpa [vb_register_negate] using l2⟩, ?_⟩
  simp only [vb_register_negate]
  rw [l3]
  congr 1
  omega

theorem varint_add_eq (a b : List Nat) :
    varint_add a b =
      if VB_IS_NEGATIVE a && VB_IS_NEGATIVE b && !VB_IS_NEGATIVE (addLoop a b 0) then none
      else if !VB_IS_NEGATIVE a && !VB_IS_NEGATIVE b && VB_IS_NEGATIVE (addLoop a b 0) then none
      else some (addLoop a b 0) := rfl

/-- C6: `varint_add` reports the overflow error (`none`) exactly when the
mathematical sum of the two registers' signed 256-bit values leaves the
representable range `[-2 ^ 255, 2 ^ 255)`; operands of different sign
never overflow; and every accepted sum is the exact signed sum. -/
theorem varint_add_exact (a b : List Nat) (ha : ValidReg a) (hb : ValidReg b) :
    (varint_add a b = none ↔
      sval a + sval b < -(2 ^ 255 : Int) ∨ (2 ^ 255 : Int) ≤ sval a + sval b) ∧
    (VB_IS_NEGATIVE a ≠ VB_IS_NEGATIVE b → varint_add a b ≠ none) ∧
    (∀ s, varint_add a b = some s → ValidReg s ∧ sval s = sval a + sval b) := by
  obtain ⟨ha8, hab⟩ := ha
  obtain ⟨hb8, hbb⟩ := hb
  have hlen : a.length = b.length := by rw [ha8, hb8]
  obtain ⟨s1, s2, s3⟩ := addLoop_spec a b 0 hlen hab hbb (by norm_num)
  rw [ha8] at s1 s3
  rw [(by norm_num : 32 * 8 = 256)] at s3
  rw [Nat.add_zero] at s3
  set s := addLoop a b 0 with hs
  have hsv : ValidReg s := ⟨s1, s2⟩
  have hA : uval a < 2 ^ 256 := by
    have h := uval_lt a hab
    rw [ha8, (by norm_num : 32 * 8 = 256)] at h
    exact h
  have hB : uval b < 2 ^ 256 := by
    have h := uval_lt b hbb
    rw [hb8, (by norm_num : 32 * 8 = 256)] at h
    exact h
  have hna := isNeg_iff a ⟨ha8, hab⟩
  have hnb := isNeg_iff b ⟨hb8, hbb⟩
  have hns := isNeg_iff s hsv
  rcases Nat.lt_or_ge (uval a) (2 ^ 255) with h1 | h1 <;>
    rcases Nat.lt_or_ge (uval b) (2 ^ 255) with h2 | h2 <;>
      rcases Nat.lt_or_ge (uval s) (2 ^ 255) with h3 | h3
  -- both non-negative, sum reported non-negative
  · have ea : VB_IS_NEGATIVE a = false := by rw [← Bool.not_eq_true, hna]; omega
    have eb : VB_IS_NEGATIVE b = false := by rw [← Bool.not_eq_true, hnb]; omega
    have es : VB_IS_NEGATIVE s = false := by rw [← Bool.not_eq_true, hns]; omega
    have hadd : varint_add a b = some s := by rw [varint_add_eq, ← hs, ea, eb, es]; rfl
    have sa : sval a = (uval a : Int) := by simp only [sval]; rw [if_pos h1]
    have sb : sval b = (uval b : Int) := by simp only [sval]; rw [if_pos h2]
    have ss : sval s = (uval s : Int) := by simp only [sval]; rw [if_pos h3]
    refine ⟨?_, ?_, ?_⟩
    · rw [hadd, sa, sb]
      constructor
      · intro hc; exact absurd hc (by simp)
      · intro hc; exfalso; rcases hc with hc | hc <;> omega
    · intro _; rw [hadd]; simp
    · intro s' hsome
      rw [hadd] at hsome
      obtain rfl : s = s' := Option.some.inj hsome
      refine ⟨hsv, ?_⟩
      rw [ss, sa, sb]
      omega
  -- both non-negative, sum reported negative: overflow
  · have ea : VB_IS_NEGATIVE a = false := by rw [← Bool.not_eq_true, hna]; omega
    have eb : VB_IS_NEGATIVE b = false := by rw [← Bool.not_eq_true, hnb]; omega
    have es : VB_IS_NEGATIVE s = true := hns.mpr h3
    have hadd : varint_add a b = none := by rw [varint_add_eq, ← hs, ea, eb, es]; rfl
    have sa : sval a = (uval a : Int) := by simp only [sval]; rw [if_pos h1]
    have sb : sval b = (uval b : Int) := by simp only [sval]; rw [if_pos h2]
    refine ⟨?_, ?_, ?_⟩
    · rw [hadd, sa, sb]
      refine ⟨fun _ => ?_, fun _ => rfl⟩
      right; omega
    · intro hne; exfalso; rw [ea, eb] at hne; exact hne rfl
    · intro s' hsome; rw [hadd] at hsome; exact absurd hsome (by simp)
  -- a non-negative, b negative: never overflows
  · have ea : VB_IS_NEGATIVE a = false := by rw [← Bool.not_eq_true, hna]; omega
    have eb : VB_IS_NEGATIVE b = true := hnb.mpr h2
    have hadd : varint_add a b = some s := by rw [varint_add_eq, ← hs, ea, eb]; rfl
    have sa : sval a = (uval a : Int) := by simp only [sval]; rw [if_pos h1]
    have sb : sval b = (uval b : Int) - 2 ^ 256 := by simp only [sval]; rw [if_neg (by omega)]
    have ss : sval s = (uval s : Int) := by simp only [sval]; rw [if_pos h3]
    refine ⟨?_, ?_, ?_⟩
    · rw [hadd, sa, sb]
      constructor
      · intro hc; exact absurd hc (by simp)
      · intro hc; exfalso; rcases hc with hc | hc <;> omega
    · intro _; rw [hadd]; simp
    · intro s' hsome
      rw [hadd] at hsome
      obtain rfl : s = s' := Option.some.inj hsome
      refine ⟨hsv, ?_⟩
      rw [ss, sa, sb]
      omega
  · have ea : VB_IS_NEGATIVE a = false := by rw [← Bool.not_eq_true, hna]; omega
    have eb : VB_IS_NEGATIVE b = true := hnb.mpr h2
    have hadd : varint_add a b = some s := by rw [varint_add_eq, ← hs, ea, eb]; rfl
    have sa : sval a = (uval a : Int) := by simp only [sval]; rw [if_pos h1]
    have sb : sval b = (uval b : Int) - 2 ^ 256 := by simp only [sval]; rw [if_neg (by omega)]
    have ss : sval s = (uval s : Int) - 2 ^ 256 := by simp only [sval]; rw [if_neg (by omega)]
    refine ⟨?_, ?_, ?_⟩
    · rw [hadd, sa, sb]
      constructor
      · intro hc; exact absurd hc (by simp)
      · intro hc; exfalso; rcases hc with hc | hc <;> omega
    · intro _; rw [hadd]; simp
    · intro s' hsome
      rw [hadd] at hsome
      obtain rfl : s = s' := Option.some.inj hsome
      refine ⟨hsv, ?_⟩
      rw [ss, sa, sb]
      omega
  -- a negative, b non-negative: never overflows
  · have ea : VB_IS_NEGATIVE a = true := hna.mpr h1
    have eb : VB_IS_NEGATIVE b = false := by rw [← Bool.not_eq_true, hnb]; omega
    have hadd : varint_add a b = some s := by rw [varint_add_eq, ← hs, ea, eb]; rfl
    have sa : sval a = (uval a : Int) - 2 ^ 256 := by simp only [sval]; rw [if_neg (by omega)]
    have sb : sval b = (uval b : Int) := by simp only [sval]; rw [if_pos h2]
    have ss : sval s = (uval s : Int) := by simp only [sval]; rw [if_pos h3]
    refine ⟨?_, ?_, ?_⟩
    · rw [hadd, sa, sb]
      constructor
      · intro hc; exact absurd hc (by simp)
      · intro hc; exfalso; rcases hc with hc | hc <;> omega
    · intro _; rw [hadd]; simp
    · intro s' hsome
      rw [hadd] at hsome
      obtain rfl : s = s' := Option.some.inj hsome
      refine ⟨hsv, ?_⟩
      rw [ss, sa, sb]
      omega
  · have ea : VB_IS_NEGATIVE a = true := hna.mpr h1
    have eb : VB_IS_NEGATIVE b = false := by rw [← Bool.not_eq_true, hnb]; omega
    have hadd : varint_add a b = some s := by rw [varint_add_eq, ← hs, ea, eb]; rfl
    have sa : sval a = (uval a : Int) - 2 ^ 256 := by simp only [sval]; rw [if_neg (by omega)]
    have sb : sval b = (uval b : Int) := by simp only [sval]; rw [if_pos h2]
    have ss : sval s = (uval s : Int) - 2 ^ 256 := by simp only [sval]; rw [if_neg (by omega)]
    refine ⟨?_, ?_, ?_⟩
    · rw [hadd, sa, sb]
      constructor
      · intro hc; exact absurd hc (by simp)
      · intro hc; exfalso; rcases hc with hc | hc <;> omega
    · intro _; rw [hadd]; simp
    · intro s' hsome
      rw [hadd] at hsome
      obtain rfl : s = s' := Option.some.inj hsome
      refine ⟨hsv, ?_⟩
      rw [ss, sa, sb]
      omega
  -- both negative, sum reported non-negative: overflow
  · have ea : VB_IS_NEGATIVE a = true := hna.mpr h1
    have eb : VB_IS_NEGATIVE b = true := hnb.mpr h2
    have es : VB_IS_NEGATIVE s = false := by rw [← Bool.not_eq_true, hns]; omega
    have hadd : varint_add a b = none := by rw [varint_add_eq, ← hs, ea, eb, es]; rfl
    have sa : sval a = (uval a : Int) - 2 ^ 256 := by simp only [sval]; rw [if_neg (by omega)]
    have sb : sval b = (uval b : Int) - 2 ^ 256 := by simp only [sval]; rw [if_neg (by omega)]
    refine ⟨?_, ?_, ?_⟩
    · rw [hadd, sa, sb]
      refine ⟨fun _ => ?_, fun _ => rfl⟩
      left; omega
    · intro hne; exfalso; rw [ea, eb] at hne; exact hne rfl
    · intro s' hsome; rw [hadd] at hsome; exact absurd hsome (by simp)
  -- both negative, sum reported negative
  · have ea : VB_IS_NEGATIVE a = true := hna.mpr h1
    have eb : VB_IS_NEGATIVE b = true := hnb.mpr h2
    have es : VB_IS_NEGATIVE s = true := hns.mpr h3
    have hadd : varint_add a b = some s := by rw [varint_add_eq, ← hs, ea, eb, es]; rfl
    have sa : sval a = (uval a : Int) - 2 ^ 256 := by simp only [sval]; rw [if_neg (by omega)]
    have sb : sval b = (uval b : Int) - 2 ^ 256 := by simp only [sval]; rw [if_neg (by omega)]
    have ss : sval s = (uval s : Int) - 2 ^ 256 := by simp only [sval]; rw [if_neg (by omega)]
    refine ⟨?_, ?_, ?_⟩
    · rw [hadd, sa, sb]
      constructor
      · intro hc; exact absurd hc (by simp)
      · intro hc; exfalso; rcases hc with hc | hc <;> omega
    · intro hne; exfalso; rw [ea, eb] at hne; exact hne rfl
    · intro s' hsome
      rw [hadd] at hsome
      obtain rfl : s = s' := Option.some.inj hsome
      refine ⟨hsv, ?_⟩
      rw [ss, sa, sb]
      omega

theorem mvalAux_eq (ws : List Nat) : ∀ a,
    mvalAux a ws = a * 2 ^ (32 * ws.length) + mvalAux 0 ws := by
  induction ws with
  | nil => intro a; simp [mvalAux]
  | cons w ws ih =>
    intro a
    simp only [mvalAux, List.length_cons]
    rw [ih (a * 2 ^ 32 + w), ih (0 * 2 ^ 32 + w)]
    have hpow : 2 ^ (32 * (ws.length + 1)) = 2 ^ (32 * ws.length) * 2 ^ 32 := by
      rw [Nat.mul_add, Nat.mul_one, Nat.pow_add]
    rw [hpow]
    ring

theorem mvalAux_append (xs : List Nat) : ∀ a w,
    mvalAux a (xs ++ [w]) = mvalAux a xs * 2 ^ 32 + w := by
  induction xs with
  | nil => intro a w; simp [mvalAux]
  | cons x xs ih =>
    intro a w
    simp only [List.cons_append, mvalAux]
    exact ih _ w

theorem uval_eq_mval (l : List Nat) : uval l = mvalAux 0 l.reverse := by
  induction l with
  | nil => simp [uval, mvalAux]
  | cons w ws ih =>
    simp only [uval, List.reverse_cons, mvalAux_append, ← ih]
    ring

theorem divLoop_spec (ws : List Nat) : ∀ n a : Nat, 1 < n → n < 2 ^ 32 → a < n →
    (∀ w ∈ ws, w < 2 ^ 32) →
    (divLoop ws n a).1.length = ws.length ∧ (∀ q ∈ (divLoop ws n a).1, q < 2 ^ 32) ∧
    (divLoop ws n a).2 < n ∧
    n * mvalAux 0 (divLoop ws n a).1 + (divLoop ws n a).2 = mvalAux a ws := by
  induction ws with
  | nil =>
    intro n a _ _ h3 _
    exact ⟨rfl, by simp [divLoop], h3, by simp [divLoop, mvalAux]⟩
  | cons w ws ih =>
    intro n a h1 h2 h3 h4
    have hw : w < 2 ^ 32 := h4 w (by simp)
    have hn0 : 0 < n := by omega
    have htmod : (a * 2 ^ 32 + w) % n < n := Nat.mod_lt _ hn0
    obtain ⟨ih1, ih2, ih3, ih4⟩ := ih n ((a * 2 ^ 32 + w) % n) h1 h2 htmod
      (fun x hx => h4 x (by simp [hx]))
    have hq32 : (a * 2 ^ 32 + w) / n < 2 ^ 32 := by
      have hmul : (a + 1) * 2 ^ 32 ≤ n * 2 ^ 32 := Nat.mul_le_mul_right _ h3
      have hlt : a * 2 ^ 32 + w < n * 2 ^ 32 := by omega
      exact Nat.div_lt_of_lt_mul hlt
    refine ⟨?_, ?_, ih3, ?_⟩
    · simp only [divLoop, List.length_cons, ih1]
    · intro q hq
      simp only [divLoop, List.mem_cons] at hq
      rcases hq with rfl | hq
      · exact hq32
      · exact ih2 q hq
    · simp only [divLoop, mvalAux, Nat.zero_mul, Nat.zero_add]
      have hdm : n * ((a * 2 ^ 32 + w) / n) + (a * 2 ^ 32 + w) % n = a * 2 ^ 32 + w :=
        Nat.div_add_mod _ n
      have ihv : n * mvalAux 0 (divLoop ws n ((a * 2 ^ 32 + w) % n)).1
            + (divLoop ws n ((a * 2 ^ 32 + w) % n)).2
          = (a * 2 ^ 32 + w) % n * 2 ^ (32 * ws.length) + mvalAux 0 ws := by
        rw [ih4, mvalAux_eq ws]
      calc n * mvalAux ((a * 2 ^ 32 + w) / n) (divLoop ws n ((a * 2 ^ 32 + w) % n)).1
            + (divLoop ws n ((a * 2 ^ 32 + w) % n)).2
          = n * ((a * 2 ^ 32 + w) / n * 2 ^ (32 * ws.length)
              + mvalAux 0 (divLoop ws n ((a * 2 ^ 32 + w) % n)).1)
            + (divLoop ws n ((a * 2 ^ 32 + w) % n)).2 := by
            rw [mvalAux_eq (divLoop ws n ((a * 2 ^ 32 + w) % n)).1, ih1]
        _ = n * ((a * 2 ^ 32 + w) / n) * 2 ^ (32 * ws.length)
            + (n * mvalAux 0 (divLoop ws n ((a * 2 ^ 32 + w) % n)).1
              + (divLoop ws n ((a * 2 ^ 32 + w) % n)).2) := by ring
        _ = n * ((a * 2 ^ 32 + w) / n) * 2 ^ (32 * ws.length)
            + ((a * 2 ^ 32 + w) % n * 2 ^ (32 * ws.length) + mvalAux 0 ws) := by rw [ihv]
        _ = (n * ((a * 2 ^ 32 + w) / n) + (a * 2 ^ 32 + w) % n) * 2 ^ (32 * ws.length)
            + mvalAux 0 ws := by ring
        _ = (a * 2 ^ 32 + w) * 2 ^ (32 * ws.length) + mvalAux 0 ws := by rw [hdm]
        _ = mvalAux (a * 2 ^ 32 + w) ws := (mvalAux_eq ws (a * 2 ^ 32 + w)).symm

/-- C7: for every register `r` and nonzero `uint32` divisor `n`,
`vb_register_divmod_uint32` succeeds, storing the quotient of `r`'s
magnitude by `n` with `r`'s sign re-applied, and returning the
non-negative remainder of that magnitude division; for `n = 0` it fails
with the division-by-zero error and produces no result. -/
theorem vb_register_divmod_uint32_exact (r : List Nat) (n : Nat) (hr : ValidReg r)
    (hn0 : 0 < n) (hn32 : n < 2 ^ 32) :
    vb_register_divmod_uint32 r 0 = none ∧
    ∃ q, vb_register_divmod_uint32 r n = some (q, (sval r).natAbs % n) ∧ ValidReg q ∧
      sval q = if sval r < 0 then -(((sval r).natAbs / n : Nat) : Int)
               else (((sval r).natAbs / n : Nat) : Int) := by
  refine ⟨by simp [vb_register_divmod_uint32], ?_⟩
  obtain ⟨h8, hbnd⟩ := hr
  have hU : uval r < 2 ^ 256 := by
    have h := uval_lt r hbnd
    rw [h8, (by norm_num : 32 * 8 = 256)] at h
    exact h
  by_cases hone : n = 1
  · subst hone
    refine ⟨r, ?_, ⟨h8, hbnd⟩, ?_⟩
    · rw [Nat.mod_one]
      rfl
    · rw [Nat.div_one]
      split
      next hneg0 => omega
      next hpos0 => omega
  · have h2 : 1 < n := by omega
    have main : ∀ m : List Nat, ValidReg m →
        uval (divLoop m.reverse n 0).1.reverse = uval m / n ∧
        (divLoop m.reverse n 0).2 = uval m % n ∧
        ValidReg ((divLoop m.reverse n 0).1.reverse) := by
      intro m hm
      obtain ⟨hm8, hmb⟩ := hm
      have hrev : ∀ w ∈ m.reverse, w < 2 ^ 32 := fun w hw => hmb w (List.mem_reverse.mp hw)
      obtain ⟨d1, d2, d3, d4⟩ := divLoop_spec m.reverse n 0 h2 hn32 (by omega) hrev
      have hv : mvalAux 0 m.reverse = uval m := (uval_eq_mval m).symm
      rw [hv] at d4
      have hq : uval ((divLoop m.reverse n 0).1.reverse)
          = mvalAux 0 (divLoop m.reverse n 0).1 := by
        rw [uval_eq_mval, List.reverse_reverse]
      refine ⟨?_, ?_, ?_, ?_⟩
      · rw [hq, ← d4, Nat.mul_add_div (by omega), Nat.div_eq_of_lt d3, Nat.add_zero]
      · rw [← d4, Nat.mul_add_mod, Nat.mod_eq_of_lt d3]
      · rw [List.length_reverse, d1, List.length_reverse, hm8]
      · intro w hw
        exact d2 w (List.mem_reverse.mp hw)
    by_cases hneg : VB_IS_NEGATIVE r = true
    · have hge : 2 ^ 255 ≤ uval r := (isNeg_iff r ⟨h8, hbnd⟩).mp hneg
      obtain ⟨n1, n2⟩ := vb_register_negate_spec r ⟨h8, hbnd⟩
      set r1 := (vb_register_negate r).1 with hr1
      have hmag : uval r1 = 2 ^ 256 - uval r := by
        rw [n2, Nat.mod_eq_of_lt (by omega)]
      obtain ⟨mq, mr, mv⟩ := main r1 n1
      set q2 := (divLoop r1.reverse n 0).1.reverse with hq2
      set rem := (divLoop r1.reverse n 0).2 with hrem
      have hQle : uval r1 / n ≤ 2 ^ 254 := by
        have hle : uval r1 ≤ 2 ^ 255 := by omega
        calc uval r1 / n ≤ uval r1 / 2 := Nat.div_le_div_left (by omega) (by norm_num)
          _ ≤ 2 ^ 255 / 2 := Nat.div_le_div_right hle
          _ = 2 ^ 254 := by norm_num
      obtain ⟨g1, g2⟩ := vb_register_negate_spec q2 mv
      set q3 := (vb_register_negate q2).1 with hq3
      have hq3v : uval q3 = (2 ^ 256 - uval r1 / n) % 2 ^ 256 := by rw [g2, mq]
      have sr : sval r = (uval r : Int) - 2 ^ 256 := by
        simp only [sval]; rw [if_neg (by omega)]
      have habs : (sval r).natAbs = 2 ^ 256 - uval r := by rw [sr]; omega
      refine ⟨q3, ?_, g1, ?_⟩
      · have hrm : (sval r).natAbs % n = rem := by rw [habs, ← hmag, ← mr]
        rw [hrm]
        simp only [vb_register_divmod_uint32, if_neg (show ¬n = 0 by omega), if_neg hone,
          hneg, if_true, ← hr1, ← hq2, ← hrem, ← hq3]
      · have hmagdiv : (sval r).natAbs / n = uval r1 / n := by rw [habs, hmag]
        rw [if_pos (show sval r < 0 by rw [sr]; omega), hmagdiv]
        by_cases hz : uval r1 / n = 0
        · rw [hz]
          have hzero : uval q3 = 0 := by rw [hq3v, hz]; norm_num
          simp only [sval, hzero]
          norm_num
        · have hv3 : uval q3 = 2 ^ 256 - uval r1 / n := by
            rw [hq3v, Nat.mod_eq_of_lt (by omega)]
          simp only [sval]
          rw [if_neg (by omega), hv3]
          omega
    · have hlt : uval r < 2 ^ 255 := by
        rcases Nat.lt_or_ge (uval r) (2 ^ 255) with h | h
        · exact h
        · exact absurd ((isNeg_iff r ⟨h8, hbnd⟩).mpr h) hneg
      have hnegf : VB_IS_NEGATIVE r = false := by
        cases hv : VB_IS_NEGATIVE r
        · rfl
        · exact absurd hv hneg
      obtain ⟨mq, mr, mv⟩ := main r ⟨h8, hbnd⟩
      set q2 := (divLoop r.reverse n 0).1.reverse with hq2
      set rem := (divLoop r.reverse n 0).2 with hrem
      have sr : sval r = (uval r : Int) := by simp only [sval]; rw [if_pos hlt]
      have habs : (sval r).natAbs = uval r := by rw [sr]; omega
      refine ⟨q2, ?_, mv, ?_⟩
      · have hrm : (sval r).natAbs % n = rem := by rw [habs, ← mr]
        rw [hrm]
        simp only [vb_register_divmod_uint32, if_neg (show ¬n = 0 by omega), if_neg hone,
          hnegf, Bool.false_eq_true, if_false, ← hq2, ← hrem]
      · rw [if_neg (show ¬sval r < 0 by rw [sr]; omega), habs]
        have hqv : uval q2 ≤ uval r := by
          rw [mq]
          exact Nat.div_le_self _ _
        simp only [sval]
        rw [if_pos (by omega), mq]

/-- Witness for C6: adding `make_varint INT64_MAX` and `make_varint 1`
succeeds with exact sum `2 ^ 63`, while adding 1 to the maximum signed
256-bit value reports the overflow error. -/
theorem varint_add_exact_witness :
    (ValidReg (make_varint (2 ^ 63 - 1)) ∧ ValidReg (make_varint 1)) ∧
    varint_add (make_varint (2 ^ 63 - 1)) (make_varint 1) ≠ none ∧
    (∀ s, varint_add (make_varint (2 ^ 63 - 1)) (make_varint 1) = some s →
      sval s = 2 ^ 63) ∧
    varint_add
      [0xffffffff, 0xffffffff, 0xffffffff, 0xffffffff, 0xffffffff, 0xffffffff,
        0xffffffff, 0x7fffffff] (make_varint 1) = none := by
  have h1 := varint_add_exact (make_varint (2 ^ 63 - 1)) (make_varint 1)
    (by decide) (by decide)
  have h2 := varint_add_exact
    [0xffffffff, 0xffffffff, 0xffffffff, 0xffffffff, 0xffffffff, 0xffffffff,
      0xffffffff, 0x7fffffff] (make_varint 1) (by decide) (by decide)
  refine ⟨⟨by decide, by decide⟩, ?_, ?_, ?_⟩
  · intro hc
    exact absurd (h1.1.mp hc) (by decide)
  · intro s hs
    have hsum := (h1.2.2 s hs).2
    rw [hsum]
    decide
  · exact h2.1.mpr (by decide)

/-- Witness for C7: `vb_register_divmod_uint32 (make_varint (-7)) 2`
yields quotient `-3` and remainder `1`. -/
theorem vb_register_divmod_uint32_exact_witness :
    (ValidReg (make_varint (-7)) ∧ 0 < 2 ∧ 2 < 2 ^ 32) ∧
    ∃ q, vb_register_divmod_uint32 (make_varint (-7)) 2 = some (q, 1) ∧ sval q = -3 := by
  obtain ⟨-, q, hsome, -, hsval⟩ :=
    vb_register_divmod_uint32_exact (make_varint (-7)) 2 (by decide) (by decide) (by decide)
  refine ⟨⟨by decide, by decide, by decide⟩, q, ?_, ?_⟩
  · have h : (sval (make_varint (-7))).natAbs % 2 = 1 := by decide
    rw [h] at hsome
    exact hsome
  · rw [hsval]
    decide

/-- C1: the byte codec does not round-trip on every register.  For the
register holding `2 ^ 31` (word 0 = `0x80000000`, all higher words zero)
the positive branch of `vb_register_out` emits only four bytes,
`00 00 00 80`, whose top bit is set, so `vb_register_in` sign-extends
with `0xff` bytes and returns the register holding `-2 ^ 31` instead of
the original register. -/
theorem c1_decode_encode_roundtrip_fails :
    vb_register_in (vb_register_out [0x80000000, 0, 0, 0, 0, 0, 0, 0]) =
      [0x80000000, 0xffffffff, 0xffffffff, 0xffffffff, 0xffffffff, 0xffffffff,
        0xffffffff, 0xffffffff] ∧
    vb_register_in (vb_register_out [0x80000000, 0, 0, 0, 0, 0, 0, 0]) ≠
      [0x80000000, 0, 0, 0, 0, 0, 0, 0] := by decide

/-- C2: `vb_register_out` is not injective on values: the registers
holding `2 ^ 31` and `-2 ^ 31` have different signed values but encode to
the byte-identical sequence `00 00 00 80`, so equal encodings do not
imply equal values and the emitted form for `2 ^ 31` is not a faithful
sign-extended representation. -/
theorem c2_encode_collision :
    vb_register_out [0x80000000, 0, 0, 0, 0, 0, 0, 0] =
      vb_register_out [0x80000000, 0xffffffff, 0xffffffff, 0xffffffff, 0xffffffff,
        0xffffffff, 0xffffffff, 0xffffffff] ∧
    sval [0x80000000, 0, 0, 0, 0, 0, 0, 0] ≠
      sval [0x80000000, 0xffffffff, 0xffffffff, 0xffffffff, 0xffffffff,
        0xffffffff, 0xffffffff, 0xffffffff] := by decide

/-- C3: `compare_varint` applied to encoder output does not agree with
the signed comparison of the registers: the encoding of `2 ^ 31` is the
four bytes `00 00 00 80` with top bit set, so it is ranked below the
empty encoding of zero although `0 < 2 ^ 31`. -/
theorem c3_compare_encode_misorders :
    compare_varint (vb_register_out [0x80000000, 0, 0, 0, 0, 0, 0, 0])
        (vb_register_out [0, 0, 0, 0, 0, 0, 0, 0]) = -1 ∧
    sval [0, 0, 0, 0, 0, 0, 0, 0] < sval [0x80000000, 0, 0, 0, 0, 0, 0, 0] := by decide

/-- C4: `int8_varint` does not build a register holding its 64-bit
argument exactly: it reads the argument with `PG_GETARG_INT32`, so the
input `2 ^ 31` is truncated to the `int32` value `-2 ^ 31` and the
resulting register holds `-2 ^ 31`, not `2 ^ 31`. -/
theorem c4_int8_varint_truncates :
    int8_varint (2 ^ 31) = make_varint (-(2 ^ 31)) ∧
    sval (int8_varint (2 ^ 31)) = -(2 ^ 31) ∧ ((2 ^ 31 : Int) ≠ -(2 ^ 31)) := by decide

/-- C5: negating the all-zero register reports overflow although the
negation of zero is representable (it is zero): `vb_register_negate`
returns flag 1 whenever the sign is unchanged, which holds for zero as
well as for the minimum value, so `varint_uminus` errors on zero. -/
theorem c5_negate_zero_overflows :
    varint_uminus [0, 0, 0, 0, 0, 0, 0, 0] = none ∧
    (vb_register_negate [0, 0, 0, 0, 0, 0, 0, 0]).1 = [0, 0, 0, 0, 0, 0, 0, 0] := by decide

/-- C8: the all-zero register encodes to the empty byte sequence, and
decoding the empty byte sequence yields the all-zero register (the pad
byte is taken from the varlena header byte preceding the payload, whose
bit 7 is clear). -/
theorem c8_zero_empty_correspondence :
    vb_register_out [0, 0, 0, 0, 0, 0, 0, 0] = [] ∧
    vb_register_in [] = [0, 0, 0, 0, 0, 0, 0, 0] := by decide

/-- C9: `varint_recv` rejects the canonical two-byte payload `80 00`
(the canonical encoding of 128: decoding and re-encoding it reproduces
it unchanged) because its final byte is NUL, contradicting the rule that
every canonical payload of length at most 32 is accepted. -/
theorem c9_recv_rejects_canonical_payload :
    varint_recv 2 [0x80, 0x00] = none ∧
    vb_register_out (vb_register_in [0x80, 0x00]) = [0x80, 0x00] ∧
    sval (vb_register_in [0x80, 0x00]) = 128 := by decide

/-- C10: on the equal-length inputs `[0x05]` and `[0x05]` the tail loop
of `compare_varint` decrements its index to `-1` and reads one byte
before each payload, so in the total `Option`-indexing embedding the
comparison returns `none` (the out-of-range branch is reached), while
the memory-layout model returns 0 only because it reads the two equal
varlena header bytes. -/
theorem c10_compare_reads_before_payload :
    compare_varint_opt [0x05] [0x05] = none ∧
    compare_varint [0x05] [0x05] = 0 := by decide

end Varint
